import Mathlib

/-!
Verification of the Sentinel-X visual security engine
(`src/engines/visual_engine.py`) against its natural-language
specification.

The detection pipeline is shallowly embedded: the pure text-processing
and scoring code is translated to executable Lean functions.  The
external OCR and CLIP-embedding capabilities are opaque collaborators in
the source; here they appear as explicit function parameters, and the
version-variable OCR result structure is modelled by the inductive type
`PyVal` of the dynamic values the decoder inspects.  Python floats are
idealised as rationals (`ℚ`); `round(x, n)` is modelled by `roundTo`
(rounding to the nearest multiple of `10⁻ⁿ`; Python resolves exact
halves to the even digit, a case none of the statements below depend
on).
-/

namespace VNITx

/-! ## Text normalization (`VisualSecurityEngine._normalize_text`) -/

/-- Lowercase [a-z0-9] test: the characters kept by the regex
`[^a-z0-9]+ → " "` after lowercasing. -/
def isLowerAlnum (c : Char) : Bool :=
  (97 ≤ c.toNat && c.toNat ≤ 122) || (48 ≤ c.toNat && c.toNat ≤ 57)

/-- ASCII lowercasing, as `str.lower()` acts on the ASCII range (the
only characters that survive the `[^a-z0-9]` filter). -/
def toLowerAscii (c : Char) : Char :=
  if 65 ≤ c.toNat ∧ c.toNat ≤ 90 then Char.ofNat (c.toNat + 32) else c

/-- One character of `text.lower()` followed by `re.sub(r"[^a-z0-9]+", " ", ·)`:
lowercase, keep alphanumerics, and turn everything else into a space.
Replacing each bad character by its own space and later splitting on
spaces is equivalent to replacing each maximal bad run by one space. -/
def cleanChar (c : Char) : Char :=
  if isLowerAlnum (toLowerAscii c) then toLowerAscii c else ' '

/-- Accumulator version of `str.split()`: split on spaces, dropping
empty pieces. -/
def splitAux : List Char → List Char → List (List Char)
  | [], acc => if acc.isEmpty then [] else [acc.reverse]
  | c :: cs, acc =>
    if c = ' ' then
      if acc.isEmpty then splitAux cs [] else acc.reverse :: splitAux cs []
    else splitAux cs (c :: acc)

/-- `cleaned.split()` on a string containing only alphanumerics and
spaces. -/
def splitTokens (cs : List Char) : List (List Char) := splitAux cs []

/-- The loop body of `merge_single_letter_runs`: `run` is the list of
pending single-character tokens. -/
def mergeRuns : List (List Char) → List (List Char) → List (List Char)
  | [], run => if run.isEmpty then [] else [run.flatten]
  | t :: ts, run =>
    if t.length = 1 then mergeRuns ts (run ++ [t])
    else if run.isEmpty then t :: mergeRuns ts []
    else run.flatten :: t :: mergeRuns ts []

/-- `merge_single_letter_runs(tokens)` from the source: concatenate
each maximal run of single-character tokens, pass other tokens through. -/
def merge_single_letter_runs (ts : List (List Char)) : List (List Char) :=
  mergeRuns ts []

/-- `" ".join(tokens)` at the character-list level. -/
def joinTokens : List (List Char) → List Char
  | [] => []
  | [t] => t
  | t :: u :: ts => t ++ ' ' :: joinTokens (u :: ts)

/-- `_normalize_text` on the underlying character list. -/
def normalizeChars (cs : List Char) : List Char :=
  joinTokens (merge_single_letter_runs (splitTokens (cs.map cleanChar)))

/-- `VisualSecurityEngine._normalize_text`. -/
def normalize_text (s : String) : String :=
  ⟨normalizeChars s.data⟩

/-! ## Threat dictionary and matching (`detect_injection`) -/

/-- `THREAT_DICTIONARY` from the source, in source order. -/
def THREAT_DICTIONARY : List String :=
  ["ignore previous",
   "system override",
   "transfer funds",
   "bypass safety",
   "disable guardrails",
   "override policy",
   "reveal secrets"]

/-- The verdict record returned by `detect_injection`. -/
structure InjectionVerdict where
  is_threat : Bool
  risk_score : ℚ
  reason : String
deriving DecidableEq, Repr

/-- Python `pat in s` on strings: `pat` occurs as a contiguous
substring of `s`. -/
def startsWithChars : List Char → List Char → Bool
  | _, [] => true
  | [], _ :: _ => false
  | c :: cs, p :: ps => c = p && startsWithChars cs ps

/-- Substring containment of `pat` in `hay` (Python's `in`). -/
def containsSub (hay pat : List Char) : Bool :=
  match hay with
  | [] => pat.isEmpty
  | _ :: rest => startsWithChars hay pat || containsSub rest pat

/-- `[phrase for phrase in THREAT_DICTIONARY if phrase in normalized]`. -/
def matchedPhrases (normalized : String) : List String :=
  THREAT_DICTIONARY.filter (fun p => containsSub normalized.data p.data)

/-- Lexicographic comparison of strings by code point (Python `<=` on
`str`), as used by `sorted`. -/
def lexLeChars : List Char → List Char → Bool
  | [], _ => true
  | _ :: _, [] => false
  | a :: as, b :: bs =>
    if a.val < b.val then true
    else if b.val < a.val then false
    else lexLeChars as bs

/-- Insert a string into a lexicographically sorted list. -/
def insertSorted (s : String) : List String → List String
  | [] => [s]
  | t :: ts => if lexLeChars s.data t.data then s :: t :: ts else t :: insertSorted s ts

/-- `sorted(·)` on a list of strings (insertion sort under `lexLeChars`). -/
def sortStrings : List String → List String
  | [] => []
  | s :: ss => insertSorted s (sortStrings ss)

/-- `np.mean([score for _, score in scored]) if scored else 0.6`. -/
def avgConf (scored : List (String × ℚ)) : ℚ :=
  if scored.isEmpty then 3/5
  else (scored.map Prod.snd).sum / (scored.length : ℚ)

/-- Python `round(q, d)`: round to `d` decimal places. -/
def roundTo (d : ℕ) (q : ℚ) : ℚ :=
  ((round (q * (10 : ℚ) ^ d) : ℤ) : ℚ) / (10 : ℚ) ^ d

/-- `min(1.0, 0.6 + 0.1 * len(matched) + 0.2 * avg_conf)`. -/
def riskScore (numMatched : ℕ) (avg : ℚ) : ℚ :=
  min 1 (3/5 + (1/10) * (numMatched : ℚ) + (1/5) * avg)

/-- The body of `detect_injection` after OCR text extraction: the
normalized text and the scored fragments determine the verdict. -/
def detect_injection_core (raw_text : String) (scored : List (String × ℚ)) :
    InjectionVerdict :=
  let normalized := normalize_text raw_text
  let matched := matchedPhrases normalized
  if normalized = "" then
    ⟨false, 0, "No readable text detected in image."⟩
  else if !matched.isEmpty then
    ⟨true, roundTo 3 (riskScore matched.length (avgConf scored)),
      "Matched threat phrases: " ++
        String.intercalate ", " (sortStrings matched.dedup) ++ "."⟩
  else
    ⟨false, 0, "No threat phrases detected."⟩

/-! ## Cross-modal consistency (`check_cross_modal`) -/

/-- The verdict record returned by `check_cross_modal`. -/
structure CrossModalVerdict where
  is_mismatch : Bool
  consistency_score : ℚ
deriving DecidableEq, Repr

/-- `np.dot` on embedding vectors. -/
def dotProduct (u v : List ℚ) : ℚ :=
  (List.zipWith (· * ·) u v).sum

/-- `VisualSecurityEngine.check_cross_modal`.  The CLIP model held by the
engine is an opaque external capability; it enters the model as the two
encoding functions `embedImage` and `embedText` (the source calls
`self.clip.encode` with `normalize_embeddings=True`, so their outputs
are promised to be unit vectors).  An empty transcript short-circuits
before either encoder is invoked. -/
def check_cross_modal {α : Type} (embedImage : α → List ℚ)
    (embedText : String → List ℚ) (image : α) (audio_transcript : String) :
    CrossModalVerdict :=
  if audio_transcript = "" then ⟨true, 0⟩
  else
    let similarity := dotProduct (embedImage image) (embedText audio_transcript)
    ⟨decide (similarity < 9/50), roundTo 4 similarity⟩

/-! ## OCR result decoding (`_extract_ocr_text`) -/

/-- Dynamic values appearing in a PaddleOCR result structure: strings,
numbers (Python `float`/`int`), nested lists (Python lists and tuples
collapse to one constructor, as the source treats them identically via
`isinstance(·, (list, tuple))`), and `None`. -/
inductive PyVal where
  | str (s : String)
  | num (q : ℚ)
  | list (items : List PyVal)
  | none

/-- Python `str(·)`, faithful on strings (the case the decoder meets in
the `[geometry, [text, score]]` shape); other values get a fixed
placeholder rendering standing in for Python's `repr`-style text, which
no statement below inspects. -/
def pyStr : PyVal → String
  | .str s => s
  | .num _ => "<number>"
  | .list _ => "<list>"
  | .none => "None"

/-- Python truthiness test `not line` on the values of `PyVal`. -/
def pyFalsy : PyVal → Bool
  | .str s => s = ""
  | .num q => q = 0
  | .list items => items.isEmpty
  | .none => true

/-- The per-line branch of `_extract_ocr_text`: returns the `text` and
`score` local variables at the end of the loop body.
`line[1]` is inspected when `line` is a list of length ≥ 2
(pattern `_ :: meta :: _`); a list `meta` yields `str(meta[0])` when
non-empty and a score when `meta[1]` is a number; a string `meta` is the
text itself; a bare string line is its own text. -/
def extractLine : PyVal → Option String × Option ℚ
  | .list (_ :: meta :: _) =>
    match meta with
    | .list ms =>
      (match ms with
       | [] => Option.none
       | m0 :: _ => Option.some (pyStr m0),
       match ms with
       | _ :: .num q :: _ => Option.some q
       | _ => Option.none)
    | .str s => (Option.some s, Option.none)
    | _ => (Option.none, Option.none)
  | .str s => (Option.some s, Option.none)
  | _ => (Option.none, Option.none)

/-- The inner loop of `_extract_ocr_text` over the lines of one block:
falsy lines are skipped, a truthy extracted text is appended to
`fragments`, and `(text, score)` is appended to `scored` when a score
was found. -/
def extractLines : List PyVal → List String × List (String × ℚ)
  | [] => ([], [])
  | line :: rest =>
    let acc := extractLines rest
    if pyFalsy line then acc
    else
      match extractLine line with
      | (Option.some t, s?) =>
        if t = "" then acc
        else
          (t :: acc.1,
           match s? with
           | Option.some sc => (t, sc) :: acc.2
           | Option.none => acc.2)
      | (Option.none, _) => acc

/-- The outer loop of `_extract_ocr_text` over blocks (`for block in
ocr_result or []`, skipping falsy blocks). -/
def extractBlocks : List (List PyVal) → List String × List (String × ℚ)
  | [] => ([], [])
  | block :: rest =>
    let acc := extractBlocks rest
    if block.isEmpty then acc
    else ((extractLines block).1 ++ acc.1, (extractLines block).2 ++ acc.2)

/-- `VisualSecurityEngine._extract_ocr_text`: `" ".join(fragments)`
paired with the scored fragments. -/
def extract_ocr_text (ocr_result : List (List PyVal)) :
    String × List (String × ℚ) :=
  (String.intercalate " " (extractBlocks ocr_result).1,
   (extractBlocks ocr_result).2)

/-- `VisualSecurityEngine.detect_injection`: the OCR capability is an
opaque collaborator, modelled as the function `ocr` from images to raw
result structures; its output is decoded, normalized and matched. -/
def detect_injection {α : Type} (ocr : α → List (List PyVal)) (image : α) :
    InjectionVerdict :=
  let extracted := extract_ocr_text (ocr image)
  detect_injection_core extracted.1 extracted.2

/-- Token lists in which no two adjacent tokens are both single
characters: the shape invariant of `merge_single_letter_runs` output. -/
def noAdjSingles : List (List Char) → Prop
  | [] => True
  | [_] => True
  | t :: u :: rest => ¬(t.length = 1 ∧ u.length = 1) ∧ noAdjSingles (u :: rest)

/-! ## Helper lemmas: characters -/

theorem toLowerAscii_of_lowerAlnum (c : Char) (h : isLowerAlnum c = true) :
    toLowerAscii c = c := by
  simp only [isLowerAlnum, Bool.or_eq_true, Bool.and_eq_true, decide_eq_true_eq] at h
  unfold toLowerAscii
  rw [if_neg (by omega)]

theorem cleanChar_of_lowerAlnum (c : Char) (h : isLowerAlnum c = true) :
    cleanChar c = c := by
  unfold cleanChar
  rw [toLowerAscii_of_lowerAlnum c h, if_pos h]

theorem cleanChar_space : cleanChar ' ' = ' ' := by decide

theorem cleanChar_cases (c : Char) :
    isLowerAlnum (cleanChar c) = true ∨ cleanChar c = ' ' := by
  unfold cleanChar
  by_cases h : isLowerAlnum (toLowerAscii c) = true
  · rw [if_pos h]; exact Or.inl h
  · rw [if_neg h]; exact Or.inr rfl

theorem lowerAlnum_ne_space (c : Char) (h : isLowerAlnum c = true) : c ≠ ' ' := by
  intro he
  subst he
  exact absurd h (by decide)

/-! ## Helper lemmas: splitting -/

theorem splitAux_append (t : List Char) (cs acc : List Char)
    (h : ∀ c ∈ t, c ≠ ' ') :
    splitAux (t ++ cs) acc = splitAux cs (t.reverse ++ acc) := by
  induction t generalizing acc with
  | nil => simp
  | cons c t ih =>
    simp only [List.cons_append, splitAux, List.append_eq]
    rw [if_neg (h c (by simp))]
    rw [ih _ (fun x hx => h x (by simp [hx]))]
    simp [List.append_assoc]

theorem splitAux_tokens (cs : List Char) (acc : List Char)
    (hcs : ∀ c ∈ cs, c = ' ' ∨ isLowerAlnum c = true)
    (hacc : ∀ c ∈ acc, isLowerAlnum c = true) :
    ∀ t ∈ splitAux cs acc, t ≠ [] ∧ ∀ c ∈ t, isLowerAlnum c = true := by
  induction cs generalizing acc with
  | nil =>
    intro t ht
    unfold splitAux at ht
    by_cases h : acc.isEmpty
    · rw [if_pos h] at ht
      exact absurd ht (List.not_mem_nil t)
    · rw [if_neg h] at ht
      rw [List.mem_singleton] at ht
      subst ht
      constructor
      · simp only [ne_eq, List.reverse_eq_nil_iff]
        exact fun hn => h (by simp [hn])
      · intro c hc
        exact hacc c (List.mem_reverse.mp hc)
  | cons c cs ih =>
    intro t ht
    unfold splitAux at ht
    by_cases hsp : c = ' '
    · rw [if_pos hsp] at ht
      by_cases h : acc.isEmpty
      · rw [if_pos h] at ht
        exact ih [] (fun x hx => hcs x (by simp [hx])) (by simp) t ht
      · rw [if_neg h] at ht
        rcases List.mem_cons.mp ht with he | hm
        · subst he
          constructor
          · simp only [ne_eq, List.reverse_eq_nil_iff]
            exact fun hn => h (by simp [hn])
          · intro x hx
            exact hacc x (List.mem_reverse.mp hx)
        · exact ih [] (fun x hx => hcs x (by simp [hx])) (by simp) t hm
    · rw [if_neg hsp] at ht
      have hc : isLowerAlnum c = true := by
        rcases hcs c (by simp) with h | h
        · exact absurd h hsp
        · exact h
      refine ih (c :: acc) (fun x hx => hcs x (by simp [hx])) ?_ t ht
      intro x hx
      rcases List.mem_cons.mp hx with he | hm
      · subst he; exact hc
      · exact hacc x hm

/-! ## Helper lemmas: single-letter-run merging -/

theorem mergeRuns_append_singles (run' ts acc : List (List Char))
    (h : ∀ s ∈ run', s.length = 1) :
    mergeRuns (run' ++ ts) acc = mergeRuns ts (acc ++ run') := by
  induction run' generalizing acc with
  | nil => simp
  | cons s run ih =>
    simp only [List.cons_append, mergeRuns, List.append_eq]
    rw [if_pos (h s (by simp))]
    rw [ih _ (fun x hx => h x (by simp [hx]))]
    simp [List.append_assoc]

theorem flatten_ne_nil_of_head (a : List Char) (rest : List (List Char))
    (ha : a ≠ []) : (a :: rest).flatten ≠ [] := by
  simp only [List.flatten_cons, ne_eq, List.append_eq_nil]
  intro hc
  exact ha hc.1

theorem mergeRuns_tokens (ts acc : List (List Char))
    (hts : ∀ t ∈ ts, t ≠ [] ∧ ∀ c ∈ t, isLowerAlnum c = true)
    (hacc : ∀ t ∈ acc, t ≠ [] ∧ ∀ c ∈ t, isLowerAlnum c = true) :
    ∀ t ∈ mergeRuns ts acc, t ≠ [] ∧ ∀ c ∈ t, isLowerAlnum c = true := by
  induction ts generalizing acc with
  | nil =>
    intro t ht
    unfold mergeRuns at ht
    by_cases h : acc.isEmpty
    · rw [if_pos h] at ht
      exact absurd ht (List.not_mem_nil t)
    · rw [if_neg h] at ht
      rw [List.mem_singleton] at ht
      subst ht
      constructor
      · cases acc with
        | nil => simp at h
        | cons a rest => exact flatten_ne_nil_of_head a rest (hacc a (by simp)).1
      · intro c hc
        rcases List.mem_flatten.mp hc with ⟨u, hu, hcu⟩
        exact (hacc u hu).2 c hcu
  | cons t ts ih =>
    intro x hx
    unfold mergeRuns at hx
    by_cases h1 : t.length = 1
    · rw [if_pos h1] at hx
      refine ih (acc ++ [t]) (fun u hu => hts u (by simp [hu])) ?_ x hx
      intro u hu
      rcases List.mem_append.mp hu with hm | hm
      · exact hacc u hm
      · rw [List.mem_singleton] at hm
        subst hm
        exact hts u (by simp)
    · rw [if_neg h1] at hx
      by_cases h2 : acc.isEmpty
      · rw [if_pos h2] at hx
        rcases List.mem_cons.mp hx with he | hm
        · subst he; exact hts x (by simp)
        · exact ih [] (fun u hu => hts u (by simp [hu])) (by simp) x hm
      · rw [if_neg h2] at hx
        rcases List.mem_cons.mp hx with he | hm
        · subst he
          constructor
          · cases acc with
            | nil => simp at h2
            | cons a rest => exact flatten_ne_nil_of_head a rest (hacc a (by simp)).1
          · intro c hc
            rcases List.mem_flatten.mp hc with ⟨u, hu, hcu⟩
            exact (hacc u hu).2 c hcu
        · rcases List.mem_cons.mp hm with he | hm2
          · subst he; exact hts x (by simp)
          · exact ih [] (fun u hu => hts u (by simp [hu])) (by simp) x hm2

theorem noAdjSingles_tail (t : List Char) (l : List (List Char))
    (h : noAdjSingles (t :: l)) : noAdjSingles l := by
  cases l with
  | nil => trivial
  | cons u rest => exact h.2

theorem noAdjSingles_cons (t : List Char) (l : List (List Char))
    (ht : t.length ≠ 1) (hl : noAdjSingles l) : noAdjSingles (t :: l) := by
  cases l with
  | nil => trivial
  | cons u rest => exact ⟨fun hc => ht hc.1, hl⟩

theorem mergeRuns_noAdjSingles (ts : List (List Char)) (acc : List (List Char)) :
    noAdjSingles (mergeRuns ts acc) := by
  induction ts generalizing acc with
  | nil =>
    unfold mergeRuns
    by_cases h : acc.isEmpty
    · rw [if_pos h]; trivial
    · rw [if_neg h]; trivial
  | cons t ts ih =>
    unfold mergeRuns
    by_cases h1 : t.length = 1
    · rw [if_pos h1]; exact ih _
    · rw [if_neg h1]
      by_cases h2 : acc.isEmpty
      · rw [if_pos h2]
        exact noAdjSingles_cons t _ h1 (ih [])
      · rw [if_neg h2]
        exact ⟨fun hc => h1 hc.2, noAdjSingles_cons t _ h1 (ih [])⟩

theorem mergeRuns_of_noAdjSingles (ts : List (List Char)) (h : noAdjSingles ts) :
    mergeRuns ts [] = ts := by
  induction ts with
  | nil => rfl
  | cons t ts ih =>
    by_cases h1 : t.length = 1
    · cases ts with
      | nil =>
        unfold mergeRuns
        rw [if_pos h1]
        unfold mergeRuns
        simp
      | cons u rest =>
        have hu : u.length ≠ 1 := fun hc => h.1 ⟨h1, hc⟩
        have h2 := ih (noAdjSingles_tail t _ h)
        unfold mergeRuns at h2
        rw [if_neg hu,
          if_pos (show ([] : List (List Char)).isEmpty = true from rfl)] at h2
        have h3 : mergeRuns rest [] = rest := (List.cons.injEq _ _ _ _).mp h2 |>.2
        unfold mergeRuns
        rw [if_pos h1]
        simp only [List.nil_append]
        unfold mergeRuns
        rw [if_neg hu, if_neg (by simp)]
        simp [h3]
    · unfold mergeRuns
      rw [if_neg h1, if_pos (show ([] : List (List Char)).isEmpty = true from rfl)]
      rw [ih (noAdjSingles_tail t _ h)]

/-! ## Helper lemmas: joining and idempotence -/

theorem joinTokens_chars (ts : List (List Char))
    (h : ∀ t ∈ ts, ∀ c ∈ t, isLowerAlnum c = true) :
    ∀ c ∈ joinTokens ts, isLowerAlnum c = true ∨ c = ' ' := by
  induction ts with
  | nil => intro c hc; exact absurd hc (List.not_mem_nil c)
  | cons t rest ih =>
    intro c hc
    cases rest with
    | nil =>
      exact Or.inl (h t (by simp) c hc)
    | cons u rest2 =>
      unfold joinTokens at hc
      rcases List.mem_append.mp hc with hm | hm
      · exact Or.inl (h t (by simp) c hm)
      · rcases List.mem_cons.mp hm with he | hm2
        · exact Or.inr he
        · exact ih (fun x hx => h x (by simp [hx])) c hm2

theorem map_id_of_fixed {β : Type} (f : β → β) (l : List β)
    (h : ∀ x ∈ l, f x = x) : l.map f = l := by
  induction l with
  | nil => rfl
  | cons x xs ih =>
    simp only [List.map_cons]
    rw [h x (by simp), ih (fun y hy => h y (by simp [hy]))]

theorem splitTokens_joinTokens (ts : List (List Char))
    (h : ∀ t ∈ ts, t ≠ [] ∧ ∀ c ∈ t, c ≠ ' ') :
    splitTokens (joinTokens ts) = ts := by
  induction ts with
  | nil => rfl
  | cons t rest ih =>
    cases rest with
    | nil =>
      show splitAux (joinTokens [t]) [] = [t]
      have hj : joinTokens [t] = t ++ [] := by simp [joinTokens]
      rw [hj, splitAux_append t [] [] (h t (by simp)).2]
      unfold splitAux
      rw [if_neg (by simp [(h t (by simp)).1])]
      simp
    | cons u rest2 =>
      show splitAux (joinTokens (t :: u :: rest2)) [] = t :: u :: rest2
      have hj : joinTokens (t :: u :: rest2) = t ++ ' ' :: joinTokens (u :: rest2) := by
        simp [joinTokens]
      rw [hj, splitAux_append t (' ' :: joinTokens (u :: rest2)) [] (h t (by simp)).2]
      unfold splitAux
      rw [if_pos rfl]
      rw [if_neg (by simp [(h t (by simp)).1])]
      have := ih (fun x hx => h x (by simp [hx]))
      unfold splitTokens at this
      rw [this]
      simp

theorem normalizeChars_idem (cs : List Char) :
    normalizeChars (normalizeChars cs) = normalizeChars cs := by
  have hts0 : ∀ t ∈ splitTokens ((cs.map cleanChar)), t ≠ [] ∧
      ∀ c ∈ t, isLowerAlnum c = true := by
    refine splitAux_tokens (cs.map cleanChar) [] ?_ (by simp)
    intro c hc
    rcases List.mem_map.mp hc with ⟨d, _, hd⟩
    rcases cleanChar_cases d with h | h
    · exact Or.inr (hd ▸ h)
    · exact Or.inl (hd ▸ h)
  have hts1 : ∀ t ∈ merge_single_letter_runs (splitTokens (cs.map cleanChar)),
      t ≠ [] ∧ ∀ c ∈ t, isLowerAlnum c = true :=
    mergeRuns_tokens _ [] hts0 (by simp)
  have hadj : noAdjSingles (merge_single_letter_runs (splitTokens (cs.map cleanChar))) :=
    mergeRuns_noAdjSingles _ []
  conv_lhs => rw [normalizeChars]
  rw [show normalizeChars cs =
      joinTokens (merge_single_letter_runs (splitTokens (cs.map cleanChar))) from rfl]
  rw [map_id_of_fixed cleanChar _ ?_]
  · rw [splitTokens_joinTokens _ ?_]
    · rw [show merge_single_letter_runs (merge_single_letter_runs (splitTokens (cs.map cleanChar))) =
          mergeRuns (merge_single_letter_runs (splitTokens (cs.map cleanChar))) [] from rfl]
      rw [mergeRuns_of_noAdjSingles _ hadj]
    · intro t ht
      refine ⟨(hts1 t ht).1, fun c hc => lowerAlnum_ne_space c ((hts1 t ht).2 c hc)⟩
  · intro c hc
    rcases joinTokens_chars _ (fun t ht => (hts1 t ht).2) c hc with h | h
    · exact cleanChar_of_lowerAlnum c h
    · rw [h]; exact cleanChar_space

/-! ## Helper lemmas: substring containment -/

theorem startsWithChars_append (p r : List Char) :
    startsWithChars (p ++ r) p = true := by
  induction p with
  | nil => cases r <;> rfl
  | cons c p ih =>
    simp only [List.cons_append, startsWithChars]
    simp [ih]

theorem containsSub_nil_pat (hay : List Char) : containsSub hay [] = true := by
  cases hay with
  | nil => rfl
  | cons c rest => rfl

theorem containsSub_append_self (p r : List Char) :
    containsSub (p ++ r) p = true := by
  cases p with
  | nil => exact containsSub_nil_pat r
  | cons c ps =>
    unfold containsSub
    simp only [List.cons_append]
    rw [show startsWithChars (c :: (ps ++ r)) (c :: ps) = true from
      startsWithChars_append (c :: ps) r]
    simp

theorem containsSub_of_decomp (hay l p r : List Char)
    (h : hay = l ++ p ++ r) : containsSub hay p = true := by
  subst h
  induction l with
  | nil => simpa using containsSub_append_self p r
  | cons c l ih =>
    unfold containsSub
    simp only [List.cons_append]
    rw [show l ++ p ++ r = l ++ (p ++ r) from by simp [List.append_assoc]] at ih ⊢
    simp [ih]

/-! ## Helper lemmas: scores and rounding -/

theorem roundTo_mono (d : ℕ) (q q' : ℚ) (h : q ≤ q') : roundTo d q ≤ roundTo d q' := by
  unfold roundTo
  have hp : (0:ℚ) < 10 ^ d := by positivity
  rw [div_le_div_iff_of_pos_right hp]
  rw [Int.cast_le]
  rw [round_eq, round_eq]
  exact Int.floor_le_floor (by nlinarith)

theorem roundTo_cap (d : ℕ) (q : ℚ) (h : q ≤ 1) : roundTo d q ≤ 1 := by
  have h1 : roundTo d q ≤ roundTo d 1 := roundTo_mono d q 1 h
  have h2 : roundTo d 1 = 1 := by
    unfold roundTo
    rw [one_mul]
    rw [show ((10:ℚ) ^ d) = (((10 ^ d : ℤ) : ℚ)) from by push_cast; ring]
    rw [round_intCast]
    rw [div_self (by positivity)]
  rw [h2] at h1
  exact h1

theorem roundTo3_seven_tenths : roundTo 3 (7/10) = 7/10 := by
  unfold roundTo
  rw [round_eq]
  norm_num

theorem avgConf_nonneg (scored : List (String × ℚ))
    (h : ∀ q ∈ scored, 0 ≤ q.2) : 0 ≤ avgConf scored := by
  unfold avgConf
  by_cases hs : scored.isEmpty
  · rw [if_pos hs]; norm_num
  · rw [if_neg hs]
    apply div_nonneg
    · apply List.sum_nonneg
      intro x hx
      rcases List.mem_map.mp hx with ⟨q, hq, hqx⟩
      exact hqx ▸ h q hq
    · positivity

theorem riskScore_le_one (n : ℕ) (a : ℚ) : riskScore n a ≤ 1 := min_le_left _ _

theorem riskScore_ge (n : ℕ) (a : ℚ) (hn : 1 ≤ n) (ha : 0 ≤ a) :
    7/10 ≤ riskScore n a := by
  unfold riskScore
  apply le_min
  · norm_num
  · have : (1:ℚ) ≤ (n : ℚ) := by exact_mod_cast hn
    nlinarith

theorem riskScore_mono_matched (m m' : ℕ) (a : ℚ) (h : m ≤ m') :
    riskScore m a ≤ riskScore m' a := by
  unfold riskScore
  apply min_le_min le_rfl
  have : (m : ℚ) ≤ (m' : ℚ) := by exact_mod_cast h
  nlinarith

theorem riskScore_mono_conf (m : ℕ) (a a' : ℚ) (h : a ≤ a') :
    riskScore m a ≤ riskScore m a' := by
  unfold riskScore
  apply min_le_min le_rfl
  nlinarith

theorem matchedPhrases_ne_empty (n : String) (h : matchedPhrases n ≠ []) :
    n ≠ "" := by
  intro he
  subst he
  revert h
  decide

theorem matched_mem_of_decomp (raw p : String) (hp : p ∈ THREAT_DICTIONARY)
    (hsub : ∃ l r, (normalize_text raw).data = l ++ p.data ++ r) :
    p ∈ matchedPhrases (normalize_text raw) := by
  rcases hsub with ⟨l, r, hd⟩
  exact List.mem_filter.mpr ⟨hp, containsSub_of_decomp _ l p.data r hd⟩

/-! ## Claim theorems -/

/-- C8: normalization is idempotent: for every raw text `x`,
`normalize(normalize(x)) == normalize(x)`. -/
theorem C8_normalize_idempotent (x : String) :
    normalize_text (normalize_text x) = normalize_text x :=
  congrArg String.mk (normalizeChars_idem x.data)

/-- C7: normalization merges every maximal left-to-right run of
consecutive single-character tokens into one concatenated token
(also when the run ends the token list), multi-character tokens pass
through unchanged and flush the in-progress run, and the raw text
"i g n o r e previous" normalizes to "ignore previous". -/
theorem C7_merge_single_letter_runs :
    (∀ (run : List (List Char)) (t : List Char) (rest : List (List Char)),
        (∀ s ∈ run, s.length = 1) → run ≠ [] → 2 ≤ t.length →
        merge_single_letter_runs (run ++ t :: rest) =
          run.flatten :: t :: merge_single_letter_runs rest) ∧
    (∀ run : List (List Char), (∀ s ∈ run, s.length = 1) → run ≠ [] →
        merge_single_letter_runs run = [run.flatten]) ∧
    (∀ (t : List Char) (rest : List (List Char)), 2 ≤ t.length →
        merge_single_letter_runs (t :: rest) = t :: merge_single_letter_runs rest) ∧
    normalize_text "i g n o r e previous" = "ignore previous" := by
  refine ⟨?_, ?_, ?_, by decide⟩
  · intro run t rest hrun hne hlen
    unfold merge_single_letter_runs
    rw [mergeRuns_append_singles run (t :: rest) [] hrun]
    simp only [List.nil_append]
    conv_lhs => rw [mergeRuns]
    rw [if_neg (by omega)]
    rw [if_neg (by simp [List.isEmpty_iff, hne])]
  · intro run hrun hne
    unfold merge_single_letter_runs
    rw [show run = run ++ [] from by simp]
    rw [mergeRuns_append_singles run [] [] (by simpa using hrun)]
    simp only [List.nil_append]
    unfold mergeRuns
    rw [if_neg (by simp [List.isEmpty_iff, hne])]
    simp
  · intro t rest hlen
    unfold merge_single_letter_runs
    conv_lhs => rw [mergeRuns]
    rw [if_neg (by omega),
      if_pos (show ([] : List (List Char)).isEmpty = true from rfl)]

/-- C7 witness: the general merging law applied to the concrete run
`["i","g","n","o","r","e"]` followed by the multi-character token
"previous". -/
theorem C7_witness :
    merge_single_letter_runs
        ([['i'], ['g'], ['n'], ['o'], ['r'], ['e']] ++
          ['p', 'r', 'e', 'v', 'i', 'o', 'u', 's'] :: []) =
      [['i'], ['g'], ['n'], ['o'], ['r'], ['e']].flatten ::
        ['p', 'r', 'e', 'v', 'i', 'o', 'u', 's'] :: merge_single_letter_runs [] :=
  C7_merge_single_letter_runs.1
    [['i'], ['g'], ['n'], ['o'], ['r'], ['e']]
    ['p', 'r', 'e', 'v', 'i', 'o', 'u', 's'] []
    (by decide) (by decide) (by decide)

/-- C4: with an empty transcript, `check_cross_modal` short-circuits to
`{is_mismatch: true, consistency_score: 0.0}` for every image and every
pair of embedding functions — in particular the image is never
embedded. -/
theorem C4_empty_transcript_fails_closed :
    ∀ (α : Type) (embedImage : α → List ℚ) (embedText : String → List ℚ)
      (image : α),
      check_cross_modal embedImage embedText image "" =
        ⟨true, 0⟩ := by
  intro α f g img
  rfl

/-- C3 counterexample: the reason strings actually returned by the code
are "No readable text detected in image." and "No threat phrases
detected.", not the strings quoted in the claim. -/
theorem C3_reason_strings_counterexample :
    (detect_injection_core "" []).reason ≠ "no readable text detected" ∧
    (detect_injection_core "hello" []).reason ≠ "no threat phrases detected" := by
  constructor
  · decide
  · decide

/-- C3 amended: the two negative cases are distinguished by exact
verdict — empty normalized text yields
`{is_threat: false, risk_score: 0.0, reason: "No readable text detected in image."}`,
non-empty unmatched text yields
`{is_threat: false, risk_score: 0.0, reason: "No threat phrases detected."}`,
and the two reason strings are distinct. -/
theorem C3_negative_verdicts :
    (∀ (raw : String) (scored : List (String × ℚ)), normalize_text raw = "" →
        detect_injection_core raw scored =
          ⟨false, 0, "No readable text detected in image."⟩) ∧
    (∀ (raw : String) (scored : List (String × ℚ)), normalize_text raw ≠ "" →
        matchedPhrases (normalize_text raw) = [] →
        detect_injection_core raw scored =
          ⟨false, 0, "No threat phrases detected."⟩) ∧
    ("No readable text detected in image." : String) ≠
      "No threat phrases detected." := by
  refine ⟨?_, ?_, by decide⟩
  · intro raw scored h
    simp only [detect_injection_core]
    rw [if_pos h]
  · intro raw scored h1 h2
    simp only [detect_injection_core]
    rw [if_neg h1, h2]
    rfl

/-- C3 witness: the amended verdicts at the empty raw text and at the
unmatched raw text "hello". -/
theorem C3_witness :
    detect_injection_core "" [] =
        ⟨false, 0, "No readable text detected in image."⟩ ∧
      detect_injection_core "hello" [] =
        ⟨false, 0, "No threat phrases detected."⟩ :=
  ⟨C3_negative_verdicts.1 "" [] (by decide),
   C3_negative_verdicts.2.1 "hello" [] (by decide) (by decide)⟩

/-- C2: if the normalized text contains a dictionary phrase as a
contiguous substring (plain containment, expressed by an explicit
decomposition `normalized = l ++ phrase ++ r`), and every fragment
confidence lies in [0,1], then the verdict is a threat with risk score
at least 0.6. -/
theorem C2_contained_phrase_is_threat (raw : String)
    (scored : List (String × ℚ)) (p : String)
    (hp : p ∈ THREAT_DICTIONARY)
    (hsub : ∃ l r, (normalize_text raw).data = l ++ p.data ++ r)
    (hconf : ∀ q ∈ scored, 0 ≤ q.2 ∧ q.2 ≤ 1) :
    (detect_injection_core raw scored).is_threat = true ∧
      3/5 ≤ (detect_injection_core raw scored).risk_score := by
  have hmem := matched_mem_of_decomp raw p hp hsub
  have hne : matchedPhrases (normalize_text raw) ≠ [] := List.ne_nil_of_mem hmem
  have hnn : normalize_text raw ≠ "" := matchedPhrases_ne_empty _ hne
  have hlen : 1 ≤ (matchedPhrases (normalize_text raw)).length :=
    List.length_pos.mpr hne
  have havg : 0 ≤ avgConf scored := avgConf_nonneg scored (fun q hq => (hconf q hq).1)
  have hround : 7/10 ≤ roundTo 3
      (riskScore (matchedPhrases (normalize_text raw)).length (avgConf scored)) := by
    calc (7:ℚ)/10 = roundTo 3 (7/10) := roundTo3_seven_tenths.symm
    _ ≤ _ := roundTo_mono 3 _ _ (riskScore_ge _ _ hlen havg)
  simp only [detect_injection_core]
  rw [if_neg hnn]
  rw [if_pos (show (!(matchedPhrases (normalize_text raw)).isEmpty) = true from by
    simp [List.isEmpty_iff, hne])]
  exact ⟨rfl, le_trans (by norm_num) hround⟩

/-- C2 witness: the raw text "system override" with one in-range
confidence triggers the threat verdict with risk score at least 0.6. -/
theorem C2_witness :
    (detect_injection_core "system override" [("SYSTEM", 9/10)]).is_threat = true ∧
      3/5 ≤ (detect_injection_core "system override" [("SYSTEM", 9/10)]).risk_score :=
  C2_contained_phrase_is_threat "system override" [("SYSTEM", 9/10)]
    "system override" (by decide) ⟨[], [], by decide⟩
    (by intro q hq; rcases List.mem_singleton.mp hq with rfl; constructor <;> norm_num)

/-- C9: the risk score function used by `detect_injection` (the rounded
capped formula) is monotonically non-decreasing in the number of
distinct matched phrases and in the average OCR confidence, and every
returned `risk_score` is at most 1. -/
theorem C9_risk_monotone_capped :
    (∀ (m m' : ℕ) (a : ℚ), m ≤ m' →
        roundTo 3 (riskScore m a) ≤ roundTo 3 (riskScore m' a)) ∧
    (∀ (m : ℕ) (a a' : ℚ), a ≤ a' →
        roundTo 3 (riskScore m a) ≤ roundTo 3 (riskScore m a')) ∧
    (∀ (raw : String) (scored : List (String × ℚ)),
        (detect_injection_core raw scored).risk_score ≤ 1) := by
  refine ⟨?_, ?_, ?_⟩
  · intro m m' a h
    exact roundTo_mono 3 _ _ (riskScore_mono_matched m m' a h)
  · intro m a a' h
    exact roundTo_mono 3 _ _ (riskScore_mono_conf m a a' h)
  · intro raw scored
    simp only [detect_injection_core]
    split
    · norm_num
    · split
      · exact roundTo_cap 3 _ (riskScore_le_one _ _)
      · norm_num

/-- C9 witness: monotonicity applied at concrete match counts 1 ≤ 2 and
concrete confidences 1/2 ≤ 3/4, and the cap at a concrete call. -/
theorem C9_witness :
    roundTo 3 (riskScore 1 (1/2)) ≤ roundTo 3 (riskScore 2 (1/2)) ∧
      roundTo 3 (riskScore 1 (1/2)) ≤ roundTo 3 (riskScore 1 (3/4)) ∧
      (detect_injection_core "system override" []).risk_score ≤ 1 :=
  ⟨C9_risk_monotone_capped.1 1 2 (1/2) (by norm_num),
   C9_risk_monotone_capped.2.1 1 (1/2) (3/4) (by norm_num),
   C9_risk_monotone_capped.2.2 "system override" []⟩

theorem detect_risk_eq (raw : String) (scored : List (String × ℚ))
    (h : matchedPhrases (normalize_text raw) ≠ []) :
    (detect_injection_core raw scored).risk_score =
      roundTo 3 (riskScore (matchedPhrases (normalize_text raw)).length
        (avgConf scored)) := by
  simp only [detect_injection_core]
  rw [if_neg (matchedPhrases_ne_empty _ h)]
  rw [if_pos (show (!(matchedPhrases (normalize_text raw)).isEmpty) = true from by
    simp [List.isEmpty_iff, h])]

/-- C1 counterexample: at the fragments
`[("SYSTEM",0.9), ("OVERRIDE",0.8), ("X",0.5)]` (one matched phrase,
average confidence 11/15) the returned risk score is the rounded value
0.847, which differs from the claimed exact value
`min(1.0, 0.6 + 0.1*|M| + 0.2*avgConf) = 127/150`. -/
theorem C1_exact_formula_counterexample :
    (detect_injection_core "SYSTEM OVERRIDE X"
        [("SYSTEM", 9/10), ("OVERRIDE", 4/5), ("X", 1/2)]).risk_score = 847/1000 ∧
    min 1 (3/5 + (1/10) *
        ((matchedPhrases (normalize_text "SYSTEM OVERRIDE X")).length : ℚ) +
        (1/5) * avgConf [("SYSTEM", 9/10), ("OVERRIDE", 4/5), ("X", 1/2)]) =
      127/150 ∧
    (847 : ℚ)/1000 ≠ 127/150 := by
  have hn : normalize_text "SYSTEM OVERRIDE X" = "system override x" := by decide
  have hm : matchedPhrases "system override x" = ["system override"] := by decide
  refine ⟨?_, ?_, by norm_num⟩
  · simp only [detect_injection_core, hn, hm]
    rw [if_neg (by decide : ¬("system override x" : String) = "")]
    rw [if_pos (by decide : (!(["system override"] : List String).isEmpty) = true)]
    norm_num [roundTo, round_eq, riskScore, avgConf, min_def]
  · rw [hn, hm]
    norm_num [avgConf, min_def]

/-- C1 amended: for every detection call with at least one matched
phrase the returned risk score is `min(1.0, 0.6 + 0.1*|M| + 0.2*avgConf)`
rounded to 3 decimal places (the example value 0.87 is exact, so the
end-to-end scenario holds as claimed). -/
theorem C1_risk_formula :
    (∀ (raw : String) (scored : List (String × ℚ)),
        matchedPhrases (normalize_text raw) ≠ [] →
        (detect_injection_core raw scored).risk_score =
          roundTo 3 (min 1 (3/5 +
            (1/10) * ((matchedPhrases (normalize_text raw)).length : ℚ) +
            (1/5) * avgConf scored))) ∧
    detect_injection (fun _ : Unit =>
        [[PyVal.list [PyVal.none, PyVal.list [PyVal.str "SYSTEM", PyVal.num (9/10)]],
          PyVal.list [PyVal.none, PyVal.list [PyVal.str "OVERRIDE", PyVal.num (4/5)]]]])
        () =
      ⟨true, 87/100, "Matched threat phrases: system override."⟩ := by
  constructor
  · intro raw scored h
    exact detect_risk_eq raw scored h
  · have hext : extract_ocr_text
        [[PyVal.list [PyVal.none, PyVal.list [PyVal.str "SYSTEM", PyVal.num (9/10)]],
          PyVal.list [PyVal.none, PyVal.list [PyVal.str "OVERRIDE", PyVal.num (4/5)]]]] =
        ("SYSTEM OVERRIDE", [("SYSTEM", 9/10), ("OVERRIDE", 4/5)]) := rfl
    have hn : normalize_text "SYSTEM OVERRIDE" = "system override" := by decide
    have hm : matchedPhrases "system override" = ["system override"] := by decide
    simp only [detect_injection, hext, detect_injection_core, hn, hm]
    rw [if_neg (by decide : ¬("system override" : String) = "")]
    rw [if_pos (by decide : (!(["system override"] : List String).isEmpty) = true)]
    have hs : String.intercalate ", " (sortStrings (["system override"].dedup)) =
        "system override" := by decide
    simp only [hs, InjectionVerdict.mk.injEq]
    refine ⟨trivial, ?_, by decide⟩
    norm_num [roundTo, round_eq, riskScore, avgConf, min_def]

/-- C1 witness: the risk formula at the raw text "system override" with
no scored fragments. -/
theorem C1_witness :
    (detect_injection_core "system override" []).risk_score =
      roundTo 3 (min 1 (3/5 +
        (1/10) * ((matchedPhrases (normalize_text "system override")).length : ℚ) +
        (1/5) * avgConf [])) :=
  C1_risk_formula.1 "system override" [] (by decide)

/-- C5 counterexample: for the unit vectors (3/5, 4/5) and
(5/13, 12/13) the dot product is 63/65, but the returned
consistency score is the 4-decimal rounding 0.9692 ≠ 63/65. -/
theorem C5_unrounded_score_counterexample :
    dotProduct [3/5, 4/5] [3/5, 4/5] = 1 ∧
    dotProduct [5/13, 12/13] [5/13, 12/13] = 1 ∧
    (check_cross_modal (fun _ : Unit => [3/5, 4/5]) (fun _ => [5/13, 12/13]) ()
        "a cat sitting on a ledge").consistency_score ≠
      dotProduct [3/5, 4/5] [5/13, 12/13] := by
  refine ⟨by norm_num [dotProduct], by norm_num [dotProduct], ?_⟩
  simp only [check_cross_modal]
  rw [if_neg (by decide : ¬("a cat sitting on a ledge" : String) = "")]
  norm_num [dotProduct, roundTo, round_eq]

/-- C5 amended: for non-empty transcripts the verdict is
`is_mismatch = (s < 0.18)` on the unrounded dot product `s`, with
`consistency_score` equal to `s` rounded to 4 decimal places (thus
possibly negative, never clamped); identical embeddings of unit norm
give consistency score 1.0 and no mismatch. -/
theorem C5_cross_modal_spec :
    (∀ (α : Type) (f : α → List ℚ) (g : String → List ℚ) (img : α) (tr : String),
        tr ≠ "" →
        check_cross_modal f g img tr =
          ⟨decide (dotProduct (f img) (g tr) < 9/50),
            roundTo 4 (dotProduct (f img) (g tr))⟩) ∧
    (∀ (α : Type) (f : α → List ℚ) (g : String → List ℚ) (img : α) (tr : String)
        (v : List ℚ), tr ≠ "" → f img = v → g tr = v → dotProduct v v = 1 →
        check_cross_modal f g img tr = ⟨false, 1⟩) := by
  have hgen : ∀ (α : Type) (f : α → List ℚ) (g : String → List ℚ) (img : α)
      (tr : String), tr ≠ "" →
      check_cross_modal f g img tr =
        ⟨decide (dotProduct (f img) (g tr) < 9/50),
          roundTo 4 (dotProduct (f img) (g tr))⟩ := by
    intro α f g img tr h
    simp only [check_cross_modal]
    rw [if_neg h]
  refine ⟨hgen, ?_⟩
  intro α f g img tr v h hf hg hv
  have h1 : decide ((1:ℚ) < 9/50) = false := decide_eq_false (by norm_num)
  have h2 : roundTo 4 (1:ℚ) = 1 := by norm_num [roundTo, round_eq]
  rw [hgen α f g img tr h, hf, hg, hv, h1, h2]

/-- C5 witness: identical unit embeddings `[1]` on the transcript "hi"
yield consistency score 1 and no mismatch. -/
theorem C5_witness :
    check_cross_modal (fun _ : Unit => [(1:ℚ)]) (fun _ => [(1:ℚ)]) () "hi" =
      ⟨false, 1⟩ :=
  C5_cross_modal_spec.2 Unit _ _ () "hi" [(1:ℚ)] (by decide) rfl rfl
    (by norm_num [dotProduct])

/-- C6 counterexample: a line in the `[text, score]` shape — the
two-element list `["hello", 0.9]` — carries the non-empty text "hello",
yet the decoder extracts nothing from it. -/
theorem C6_shape_counterexample :
    extract_ocr_text [[PyVal.list [PyVal.str "hello", PyVal.num (9/10)]]] =
        ("", []) ∧
      ("hello" : String) ≠ "" :=
  ⟨rfl, by decide⟩

/-- C6 amended: the decoder extracts the text (and score) from lines in
the `[geometry, [text, score]]` shape, while list-shaped lines
`[text]` and `[text, score]` yield no text and are skipped; skipping is
never fatal (the decoder is a total function). -/
theorem C6_ocr_decoder_shapes :
    (∀ (g : PyVal) (t : String) (q : ℚ), t ≠ "" →
        extract_ocr_text [[PyVal.list [g, PyVal.list [PyVal.str t, PyVal.num q]]]] =
          (t, [(t, q)])) ∧
    (∀ (t : String) (q : ℚ),
        extract_ocr_text [[PyVal.list [PyVal.str t, PyVal.num q]]] = ("", [])) ∧
    (∀ t : String, extract_ocr_text [[PyVal.list [PyVal.str t]]] = ("", [])) := by
  refine ⟨?_, fun t q => rfl, fun t => rfl⟩
  intro g t q ht
  simp only [extract_ocr_text, extractBlocks, extractLines, extractLine, pyFalsy,
    pyStr, List.isEmpty_cons, Bool.false_eq_true, if_false]
  rw [if_neg ht]
  simp only [String.intercalate]
  rfl

/-- C6 witness: the `[geometry, [text, score]]` shape at the concrete
line `[None, ["hi", 0.5]]`. -/
theorem C6_witness :
    extract_ocr_text
        [[PyVal.list [PyVal.none, PyVal.list [PyVal.str "hi", PyVal.num (1/2)]]]] =
      ("hi", [("hi", 1/2)]) :=
  C6_ocr_decoder_shapes.1 PyVal.none "hi" (1/2) (by decide)

/-- C10: both verdict scores are rounded before being returned —
`risk_score` to 3 decimal places and `consistency_score` to 4 — and at
concrete inputs the returned scores differ from the exact formula
values. -/
theorem C10_scores_rounded :
    (∀ (raw : String) (scored : List (String × ℚ)),
        matchedPhrases (normalize_text raw) ≠ [] →
        (detect_injection_core raw scored).risk_score =
          roundTo 3 (riskScore (matchedPhrases (normalize_text raw)).length
            (avgConf scored))) ∧
    (∀ (α : Type) (f : α → List ℚ) (g : String → List ℚ) (img : α) (tr : String),
        tr ≠ "" →
        (check_cross_modal f g img tr).consistency_score =
          roundTo 4 (dotProduct (f img) (g tr))) ∧
    (detect_injection_core "SYSTEM OVERRIDE X"
        [("SYSTEM", 9/10), ("OVERRIDE", 4/5), ("X", 1/2)]).risk_score ≠
      riskScore (matchedPhrases (normalize_text "SYSTEM OVERRIDE X")).length
        (avgConf [("SYSTEM", 9/10), ("OVERRIDE", 4/5), ("X", 1/2)]) ∧
    (check_cross_modal (fun _ : Unit => [3/5, 4/5]) (fun _ => [5/13, 12/13]) ()
        "a caption").consistency_score ≠
      dotProduct [3/5, 4/5] [5/13, 12/13] := by
  have hcm : ∀ (α : Type) (f : α → List ℚ) (g : String → List ℚ) (img : α)
      (tr : String), tr ≠ "" →
      (check_cross_modal f g img tr).consistency_score =
        roundTo 4 (dotProduct (f img) (g tr)) := by
    intro α f g img tr h
    simp only [check_cross_modal]
    rw [if_neg h]
  refine ⟨detect_risk_eq, hcm, ?_, ?_⟩
  · have hn : normalize_text "SYSTEM OVERRIDE X" = "system override x" := by decide
    have hm : matchedPhrases "system override x" = ["system override"] := by decide
    rw [detect_risk_eq _ _ (by rw [hn, hm]; decide)]
    rw [hn, hm]
    norm_num [roundTo, round_eq, riskScore, avgConf, min_def]
  · rw [hcm Unit _ _ () "a caption" (by decide)]
    norm_num [dotProduct, roundTo, round_eq]

/-- C10 witness: the rounding law for `risk_score` at the raw text
"system override" with no scored fragments, and for
`consistency_score` at concrete embeddings on the transcript "hi". -/
theorem C10_witness :
    (detect_injection_core "system override" []).risk_score =
        roundTo 3 (riskScore (matchedPhrases (normalize_text "system override")).length
          (avgConf [])) ∧
      (check_cross_modal (fun _ : Unit => [(1:ℚ)]) (fun _ => [(1:ℚ)]) ()
          "hi").consistency_score =
        roundTo 4 (dotProduct [(1:ℚ)] [(1:ℚ)]) :=
  ⟨C10_scores_rounded.1 "system override" [] (by decide),
   C10_scores_rounded.2.1 Unit _ _ () "hi" (by decide)⟩
